import Mathlib

/-!
Verification of the content chunking pipeline in `src/data/download.py`.

The Python functions are shallowly embedded over `List Char` / `String`:
Python strings are modelled as Lean strings, `str.splitlines` is modelled
with the newline character as the only line separator, `str.strip` strips
the Python whitespace characters, `str.split()` splits on whitespace runs,
and `re.findall(r"\w+", s)` counts maximal ASCII alphanumeric or
underscore runs.  File input and output is modelled by passing the record
lists explicitly; `ast.parse` (used only by `split_python_code`) is
modelled as an oracle argument returning the list of top level statement
blocks, or `none` on a parse failure.
-/

namespace DownloadPy

/-- Python whitespace characters as used by `str.strip` and `str.split`
(ASCII fragment: space, tab, newline, carriage return, vertical tab,
form feed). -/
def isPyWS (c : Char) : Bool :=
  c = ' ' || c = '\t' || c = '\n' || c = '\r' || c = '\x0b' || c = '\x0c'

/-- Drop leading whitespace, as in Python `str.lstrip()`. -/
def stripL (cs : List Char) : List Char := cs.dropWhile isPyWS

/-- Drop trailing whitespace, as in Python `str.rstrip()`. -/
def stripR (cs : List Char) : List Char := (stripL cs.reverse).reverse

/-- Python `str.strip()` on a character list. -/
def stripBoth (cs : List Char) : List Char := stripR (stripL cs)

/-- Python `str.strip()` on a string. -/
def pyStrip (s : String) : String := String.mk (stripBoth s.data)

/-- Split a character list at every occurrence of the separator character,
keeping empty segments, as in Python `str.split(sep)`.  The result is
always nonempty. -/
def splitOnChar (sep : Char) : List Char → List (List Char)
  | [] => [[]]
  | c :: rest =>
      if c = sep then [] :: splitOnChar sep rest
      else
        match splitOnChar sep rest with
        | [] => [[c]]
        | l :: ls => (c :: l) :: ls

/-- Python `str.splitlines()` with the newline character as the only line
separator: the empty string has no lines, and a single trailing newline
does not produce a trailing empty line. -/
def pyLines (cs : List Char) : List (List Char) :=
  if cs = [] then []
  else
    let p := splitOnChar '\n' cs
    if p.getLast? = some [] then p.dropLast else p

/-- Python `str.splitlines()` on a string, returning strings. -/
def pyLinesStr (s : String) : List String := (pyLines s.data).map String.mk

/-- Join a list of lines with newline characters, as in
Python `"\n".join(lines)`. -/
def joinNl : List (List Char) → List Char
  | [] => []
  | [l] => l
  | l :: ls => l ++ '\n' :: joinNl ls

/-- Join a list of strings with a single space, as in
Python `" ".join(strs)`. -/
def joinSp : List String → String
  | [] => ""
  | [s] => s
  | s :: rest => s ++ " " ++ joinSp rest

/-- Count of maximal runs of non whitespace characters: the length of
Python `s.split()`. -/
def wcAux : List Char → Bool → Nat
  | [], _ => 0
  | c :: cs, inw =>
      if isPyWS c then wcAux cs false
      else (if inw then 0 else 1) + wcAux cs true

/-- Length of Python `s.split()`, the word count used by
`chunk_by_sentences`. -/
def pyWordCount (s : String) : Nat := wcAux s.data false

/-- ASCII word character test for the regex class `\w`. -/
def isWordChar (c : Char) : Bool := c.isAlphanum || c = '_'

/-- Count of maximal runs of `\w` characters. -/
def cwAux : List Char → Bool → Nat
  | [], _ => 0
  | c :: cs, inw =>
      if isWordChar c then (if inw then 0 else 1) + cwAux cs true
      else cwAux cs false

/-- Embedding of `count_words` in `split_code_blocks`:
`len(re.findall(r"\w+", s))`. -/
def countWords (s : String) : Nat := cwAux s.data false

/-- Maximal runs of non whitespace characters, Python `s.split()`; the
accumulator holds the current run in reverse. -/
def pySplitAux : List Char → List Char → List (List Char)
  | [], acc => if acc.isEmpty then [] else [acc.reverse]
  | c :: cs, acc =>
      if isPyWS c then
        if acc.isEmpty then pySplitAux cs [] else acc.reverse :: pySplitAux cs []
      else pySplitAux cs (c :: acc)

/-- Python `s.split()` on a string. -/
def pySplit (s : String) : List String := (pySplitAux s.data []).map String.mk

/-- Sentence terminators of `split_text_into_sentences`:
the pattern `([。！？!?\.])`. -/
def isSentEnd (c : Char) : Bool :=
  c = '。' || c = '！' || c = '？' || c = '!' || c = '?' || c = '.'

/-- Segments of `re.split` with the capture group kept attached to the
preceding text, plus the trailing text: the `paired` list of
`split_text_into_sentences` together with its appended final element. -/
def sentSegs : List Char → List Char → List String
  | [], acc => [String.mk acc.reverse]
  | c :: rest, acc =>
      if isSentEnd c then String.mk (acc.reverse ++ [c]) :: sentSegs rest []
      else sentSegs rest (c :: acc)

/-- Embedding of `split_text_into_sentences`. -/
def split_text_into_sentences (text : String) : List String :=
  ((sentSegs text.data []).map pyStrip).filter (fun s => s ≠ "")

/-- Loop of `chunk_by_sentences`: the accumulator `cur` is kept reversed. -/
def chunkGo (maxW : Nat) : List String → List String → Nat → List String
  | [], cur, _ => if cur = [] then [] else [joinSp cur.reverse]
  | s :: ss, cur, count =>
      let w := pyWordCount s
      if count + w > maxW ∧ cur ≠ [] then
        joinSp cur.reverse :: chunkGo maxW ss [s] w
      else
        chunkGo maxW ss (s :: cur) (count + w)

/-- Embedding of `chunk_by_sentences`. -/
def chunk_by_sentences (text : String) (maxW : Nat) : List String :=
  chunkGo maxW (split_text_into_sentences text) [] 0

/-- Modelled from the spec: the greedy packing algorithm of the
SentenceChunker (section 4.4), parameterized by the function giving the
word count of each sentence, for comparison with the count the code
actually uses. -/
def chunkPackGo (wc : String → Nat) (maxW : Nat) :
    List String → List String → Nat → List String
  | [], cur, _ => if cur = [] then [] else [joinSp cur.reverse]
  | s :: ss, cur, count =>
      let w := wc s
      if count + w > maxW ∧ cur ≠ [] then
        joinSp cur.reverse :: chunkPackGo wc maxW ss [s] w
      else
        chunkPackGo wc maxW ss (s :: cur) (count + w)

/-- Modelled from the spec: the SentenceChunker pipeline with an explicit
word counting function. -/
def chunkPackBy (wc : String → Nat) (maxW : Nat) (text : String) : List String :=
  chunkPackGo wc maxW (split_text_into_sentences text) [] 0

/-- Scan for the first closing block comment marker, returning the
characters after it. -/
def dropClose : List Char → Option (List Char)
  | [] => none
  | '*' :: '/' :: rest => some rest
  | _ :: rest => dropClose rest

/-- Fuelled removal of non greedy `/* ... */` block comments, the
substitution `re.sub(r"/\*.*?\*/", "", content, flags=re.DOTALL)`.  Each
step consumes at least one character, so fuel equal to the length of the
input suffices. -/
def rbcFuel : Nat → List Char → List Char
  | 0, cs => cs
  | _ + 1, [] => []
  | fuel + 1, '/' :: '*' :: rest =>
      (match dropClose rest with
       | some rest2 => rbcFuel fuel rest2
       | none => '/' :: '*' :: rest)
  | fuel + 1, c :: rest => c :: rbcFuel fuel rest

/-- Removal of block comments from the content, as performed first by
`split_code_and_comments`. -/
def removeBlockComments (cs : List Char) : List Char := rbcFuel cs.length cs

/-- Test of the line classification in `split_code_and_comments`: the
stripped line starts with `#` or `//`. -/
def isCommentLine (line : List Char) : Bool :=
  match stripBoth line with
  | '#' :: _ => true
  | '/' :: '/' :: _ => true
  | _ => false

/-- Loop of `split_code_and_comments`: classify each line as a code line
or a comment line, in order. -/
def classifyLines : List (List Char) → List (List Char) × List (List Char)
  | [] => ([], [])
  | l :: ls =>
      let p := classifyLines ls
      if isCommentLine l then (p.1, l :: p.2) else (l :: p.1, p.2)

/-- Embedding of `split_code_and_comments`: block comments are removed,
the remaining lines are classified, and each class is joined with
newlines and stripped. -/
def split_code_and_comments (content : String) : String × String :=
  let cs := removeBlockComments content.data
  let p := classifyLines (pyLines cs)
  (String.mk (stripBoth (joinNl p.1)), String.mk (stripBoth (joinNl p.2)))

/-- Occurrence count of a character in a line, Python `line.count(c)`. -/
def countChar (c : Char) (cs : List Char) : Nat := (cs.filter (fun d => d = c)).length

/-- Membership test of a character in a line, Python `c in line`. -/
def hasChar (c : Char) (cs : List Char) : Bool := cs.contains c

/-- Embedding of `split_python_code`: the `ast.parse` based block list is
an oracle argument, `none` standing for a parse failure handled by the
`except` branch; the `blocks or [code]` fallback keeps the whole blob
when no block was produced. -/
def split_python_code (parsed : Option (List String)) (code : String) : List String :=
  match parsed with
  | none => [code]
  | some blocks =>
      match blocks with
      | [] => [code]
      | _ => blocks

/-- Stack update of `split_java_code` for one line: push once when the
line contains an opening brace, then pop once when it contains a closing
brace and the stack is nonempty. -/
def javaStack (stack : Nat) (line : List Char) : Nat :=
  if hasChar '}' line ∧ (if hasChar '{' line then stack + 1 else stack) > 0 then
    (if hasChar '{' line then stack + 1 else stack) - 1
  else (if hasChar '{' line then stack + 1 else stack)

/-- Loop of `split_java_code`: a stack of opening braces (at most one
push and one pop per line), slices closed when the stack is empty on a
line containing an opening brace.  The buffer holds the current slice in
reverse. -/
def javaGo : List (List Char) → Nat → List (List Char) → List (List Char)
  | [], _, buf =>
      if buf.isEmpty then []
      else if (stripBoth (joinNl buf.reverse)).isEmpty then []
      else [stripBoth (joinNl buf.reverse)]
  | line :: ls, stack, buf =>
      if javaStack stack line = 0 ∧ hasChar '{' line then
        stripBoth (joinNl (buf.reverse ++ [line])) :: javaGo ls 0 []
      else javaGo ls (javaStack stack line) (line :: buf)

/-- Embedding of `split_java_code`. -/
def split_java_code (code : String) : List String :=
  match javaGo (pyLines code.data) 0 [] with
  | [] => [code]
  | bs => bs.map String.mk

/-- Test for a full line comment in `split_js_code`:
`re.match(r'^\s*//', line)`. -/
def jsCommentLine (line : List Char) : Bool :=
  List.isPrefixOf ['/', '/'] (stripL line)

/-- Depth update of `split_js_code` for one non comment line: the signed
count of opening minus closing braces is added. -/
def jsDepth (depth : Int) (line : List Char) : Int :=
  depth + (countChar '{' line : Int) - (countChar '}' line : Int)

/-- Loop of `split_js_code`: every line is buffered; full line comments
do not update the depth; the depth is a signed count of braces. -/
def jsGo : List (List Char) → Int → List (List Char) → List (List Char)
  | [], _, buf =>
      if buf.isEmpty then []
      else if (stripBoth (joinNl buf.reverse)).isEmpty then []
      else [stripBoth (joinNl buf.reverse)]
  | line :: ls, depth, buf =>
      if jsCommentLine line then jsGo ls depth (line :: buf)
      else
        if jsDepth depth line = 0 ∧ ¬(line :: buf).isEmpty ∧ hasChar '{' line then
          if (stripBoth (joinNl (line :: buf).reverse)).isEmpty then
            jsGo ls (jsDepth depth line) []
          else stripBoth (joinNl (line :: buf).reverse) :: jsGo ls (jsDepth depth line) []
        else jsGo ls (jsDepth depth line) (line :: buf)

/-- Embedding of `split_js_code`. -/
def split_js_code (code : String) : List String :=
  match jsGo (pyLines code.data) 0 [] with
  | [] => [code]
  | bs => bs.map String.mk

/-- Test that a keyword is followed by a word boundary:
the list starts with the keyword and the next character, if any, is not a
word character. -/
def kwAfter (kw : List Char) (t : List Char) : Bool :=
  List.isPrefixOf kw t &&
    (match t.drop kw.length with
     | [] => true
     | c :: _ => !isWordChar c)

/-- Test for a Go declaration line:
`re.match(r'^\s*(func|type|var|const)\b', line)`. -/
def goKwLine (line : List Char) : Bool :=
  let t := stripL line
  kwAfter "func".data t || kwAfter "type".data t ||
    kwAfter "var".data t || kwAfter "const".data t

/-- Depth update of `split_go_code` for one line: the depth is reset to
zero on declaration keyword lines, then the signed brace count is added. -/
def goDepth (depth : Int) (line : List Char) : Int :=
  (if goKwLine line then 0 else depth) +
    (countChar '{' line : Int) - (countChar '}' line : Int)

/-- Loop of `split_go_code`: the depth is reset on declaration keyword
lines, then updated by the signed brace count. -/
def goGo : List (List Char) → Int → List (List Char) → List (List Char)
  | [], _, buf =>
      if buf.isEmpty then []
      else if (stripBoth (joinNl buf.reverse)).isEmpty then []
      else [stripBoth (joinNl buf.reverse)]
  | line :: ls, depth, buf =>
      if goDepth depth line = 0 ∧ hasChar '{' line then
        if (stripBoth (joinNl (line :: buf).reverse)).isEmpty then
          goGo ls (goDepth depth line) []
        else stripBoth (joinNl (line :: buf).reverse) :: goGo ls (goDepth depth line) []
      else goGo ls (goDepth depth line) (line :: buf)

/-- Embedding of `split_go_code`. -/
def split_go_code (code : String) : List String :=
  match goGo (pyLines code.data) 0 [] with
  | [] => [code]
  | bs => bs.map String.mk

/-- Test for a Ruby opener on an already stripped line:
`re.match(r'^(class|module|def)\b', stripped)`. -/
def rubyKwLine (st : List Char) : Bool :=
  kwAfter "class".data st || kwAfter "module".data st || kwAfter "def".data st

/-- Loop of `split_ruby_code`: a nesting counter incremented on opener
keywords and decremented on a bare `end`, closing a block when it
returns to zero. -/
def rubyGo : List (List Char) → Nat → List (List Char) → List (List Char)
  | [], _, buf =>
      if buf.isEmpty then []
      else if (stripBoth (joinNl buf.reverse)).isEmpty then []
      else [stripBoth (joinNl buf.reverse)]
  | line :: ls, depth, buf =>
      if rubyKwLine (stripBoth line) then rubyGo ls (depth + 1) (line :: buf)
      else
        if stripBoth line = "end".data ∧ depth > 0 then
          if depth = 1 then
            if (stripBoth (joinNl (line :: buf).reverse)).isEmpty then rubyGo ls 0 []
            else stripBoth (joinNl (line :: buf).reverse) :: rubyGo ls 0 []
          else rubyGo ls (depth - 1) (line :: buf)
        else rubyGo ls depth (line :: buf)

/-- Embedding of `split_ruby_code`. -/
def split_ruby_code (code : String) : List String :=
  match rubyGo (pyLines code.data) 0 [] with
  | [] => [code]
  | bs => bs.map String.mk

/-- ASCII lower casing of one character, for `str.lower()`. -/
def asciiLowerChar (c : Char) : Char :=
  if 'A' ≤ c ∧ c ≤ 'Z' then Char.ofNat (c.toNat + 32) else c

/-- Final component of a path, the part after the last slash. -/
def lastComponent (path : List Char) : List Char :=
  (splitOnChar '/' path).getLastD []

/-- Scan of a reversed file name for its last dot: returns the extension
characters (in order) and the characters before the dot (reversed). -/
def sfxScan : List Char → List Char → Option (List Char × List Char)
  | _, [] => none
  | acc, '.' :: rest => some (acc, rest)
  | acc, c :: rest => sfxScan (c :: acc) rest

/-- Embedding of `pathlib.Path(path).suffix`: the extension of the final
component including the dot, empty when the last dot is the first or the
last character of the name. -/
def pathSuffix (path : List Char) : List Char :=
  match sfxScan [] (lastComponent path).reverse with
  | some (acc, pre) => if acc ≠ [] ∧ pre ≠ [] then '.' :: acc else []
  | none => []

/-- Embedding of `detect_lang`. -/
def detect_lang (path : String) : String :=
  let ext := String.mk ((pathSuffix path.data).map asciiLowerChar)
  if ext = ".py" then "python"
  else if ext = ".java" then "java"
  else if ext = ".js" then "js"
  else if ext = ".ts" then "ts"
  else if ext = ".go" then "go"
  else if ext = ".php" then "php"
  else if ext = ".rb" then "ruby"
  else "unknown"

/-- Output record of `split_code_blocks`.  The JSON field `global_id` is
the f-string `"{fileIdx}.{unitIdx}"`, represented here by its two
components. -/
structure CodeUnit where
  fileIdx : Nat
  unitIdx : Nat
  path : String
  lang : String
  code : String
deriving Repr, DecidableEq

/-- Output record of `split_comment_blocks`. -/
structure CommentUnit where
  fileIdx : Nat
  unitIdx : Nat
  path : String
  comments : String
deriving Repr, DecidableEq

/-- Output record of `save_markdown_chunks_as_json`. -/
structure TextUnit where
  fileIdx : Nat
  unitIdx : Nat
  path : String
  text : String
deriving Repr, DecidableEq

/-- Language dispatch of `split_code_blocks` for a long file. -/
def blocksFor (pyParse : String → Option (List String)) (path code : String) :
    List String :=
  match detect_lang path with
  | "python" => split_python_code (pyParse code) code
  | "java" => split_java_code code
  | "js" => split_js_code code
  | "ts" => split_js_code code
  | "go" => split_go_code code
  | "ruby" => split_ruby_code code
  | _ => [code]

/-- Enumeration of a list starting at a given index,
Python `enumerate(xs, start)`. -/
def withIdx (start : Nat) : List α → List (Nat × α)
  | [] => []
  | a :: rest => (start, a) :: withIdx (start + 1) rest

/-- Units emitted by `split_code_blocks` for one input record: a single
unit when the word count is within the budget, otherwise one unit per
structural block. -/
def unitsFor (pyParse : String → Option (List String)) (maxW idx : Nat)
    (path code : String) : List CodeUnit :=
  if countWords code ≤ maxW then [⟨idx, 1, path, detect_lang path, code⟩]
  else (withIdx 1 (blocksFor pyParse path code)).map
    fun jb => ⟨idx, jb.1, path, detect_lang path, jb.2⟩

/-- Record loop of `split_code_blocks`, enumerating records from a given
file index. -/
def scbGo (pyParse : String → Option (List String)) (maxW : Nat) :
    Nat → List (String × String) → List CodeUnit
  | _, [] => []
  | idx, r :: rs => unitsFor pyParse maxW idx r.1 r.2 ++ scbGo pyParse maxW (idx + 1) rs

/-- Embedding of `split_code_blocks` over the list of `(path, code)`
records of its input stream. -/
def split_code_blocks (pyParse : String → Option (List String)) (maxW : Nat)
    (records : List (String × String)) : List CodeUnit :=
  scbGo pyParse maxW 1 records

/-- Units emitted by `split_comment_blocks` for one `(path, comments)`
record: one unit per non blank comment line, none when the comment string
is empty. -/
def commentUnitsFor (idx : Nat) (path comments : String) : List CommentUnit :=
  if comments = "" then []
  else (withIdx 1 ((pyLinesStr comments).filter (fun l => pyStrip l ≠ ""))).map
    fun jl => ⟨idx, jl.1, path, jl.2⟩

/-- Record loop of `split_comment_blocks`. -/
def scmGo : Nat → List (String × String) → List CommentUnit
  | _, [] => []
  | idx, r :: rs => commentUnitsFor idx r.1 r.2 ++ scmGo (idx + 1) rs

/-- Embedding of `split_comment_blocks`. -/
def split_comment_blocks (records : List (String × String)) : List CommentUnit :=
  scmGo 1 records

/-- Test of `path.lower().endswith(".md")`. -/
def isMdPath (p : String) : Bool :=
  List.isSuffixOf ".md".data (p.data.map asciiLowerChar)

/-- Units emitted by `save_markdown_chunks_as_json` for one
`(path, content)` record: one unit per chunk for markdown paths, none
otherwise. -/
def mdUnitsFor (maxW idx : Nat) (path content : String) : List TextUnit :=
  if isMdPath path then
    (withIdx 1 (chunk_by_sentences content maxW)).map fun jc => ⟨idx, jc.1, path, jc.2⟩
  else []

/-- Record loop of `save_markdown_chunks_as_json`. -/
def smGo (maxW : Nat) : Nat → List (String × String) → List TextUnit
  | _, [] => []
  | idx, r :: rs => mdUnitsFor maxW idx r.1 r.2 ++ smGo maxW (idx + 1) rs

/-- Embedding of `save_markdown_chunks_as_json`. -/
def save_markdown_chunks_as_json (maxW : Nat) (records : List (String × String)) :
    List TextUnit :=
  smGo maxW 1 records

/-- Classification loop of `classify_files`, dispatching each traversed
path on its lower cased suffix, in traversal order. -/
def classifyLoop (textExts codeExts : List String) :
    List String → List String × List String × List String
  | [] => ([], [], [])
  | p :: rest =>
      let t := classifyLoop textExts codeExts rest
      let ext := String.mk ((pathSuffix p.data).map asciiLowerChar)
      if textExts.contains ext then (p :: t.1, t.2.1, t.2.2)
      else if codeExts.contains ext then (t.1, p :: t.2.1, t.2.2)
      else (t.1, t.2.1, p :: t.2.2)

/-- Embedding of `classify_files`: the directory traversal is modelled by
its result, an error standing for an unreadable repository root.  The
function installs no handler, so a traversal error propagates. -/
def classify_files (walk : Except String (List String))
    (textExts codeExts : List String) :
    Except String (List String × List String × List String) :=
  match walk with
  | .error e => .error e
  | .ok paths => .ok (classifyLoop textExts codeExts paths)

/-- Embedding of `save_code_comment_split`: each read is modelled by its
result; a failed read is caught, the file is skipped, and the loop
continues.  Records are only written for non empty code or comment
strings. -/
def save_code_comment_split (reads : List (String × Except String String)) :
    List (String × String) × List (String × String) :=
  match reads with
  | [] => ([], [])
  | (_, .error _) :: rest => save_code_comment_split rest
  | (path, .ok content) :: rest =>
      let t := save_code_comment_split rest
      let pr := split_code_and_comments content
      ((if pr.1 ≠ "" then [(path, pr.1)] else []) ++ t.1,
       (if pr.2 ≠ "" then [(path, pr.2)] else []) ++ t.2)

/-- Model of the fatal path of `main`: classification runs before
extraction, and an error from the traversal aborts the run (a Python
exception escaping `main` gives a non zero exit status). -/
def mainPipeline (walk : Except String (List String))
    (readOf : String → Except String String) (textExts codeExts : List String) :
    Except String (List (String × String) × List (String × String)) :=
  match classify_files walk textExts codeExts with
  | .error e => .error e
  | .ok cls => .ok (save_code_comment_split (cls.2.1.map fun p => (p, readOf p)))

/-- Lines of a string after trimming each line and dropping blank lines:
the residue of the original content that per block trimming can not
change. -/
def normLines (s : String) : List (List Char) :=
  ((pyLines s.data).map stripBoth).filter (fun l => l ≠ [])

/-- Normalized segments of a character list, with the always nonempty
`splitOnChar` in place of `pyLines`; the trailing empty segment dropped
by `pyLines` is blank, so both agree after the filter. -/
def nrm (cs : List Char) : List (List Char) :=
  ((splitOnChar '\n' cs).map stripBoth).filter (fun l => l ≠ [])

/-- Append one character to the last segment of a nonempty segment list. -/
def appendLast : List (List Char) → Char → List (List Char)
  | [], c => [[c]]
  | [l], c => [l ++ [c]]
  | l :: ls, c => l :: appendLast ls c

/-- Unit count contributed by one record of `split_code_blocks`. -/
def kCode (pyParse : String → Option (List String)) (maxW : Nat)
    (path code : String) : Nat :=
  if countWords code ≤ maxW then 1 else (blocksFor pyParse path code).length

/-- Unit count contributed by one record of `split_comment_blocks`. -/
def kComment (_path comments : String) : Nat :=
  if comments = "" then 0
  else ((pyLinesStr comments).filter (fun l => pyStrip l ≠ "")).length

/-- Unit count contributed by one record of
`save_markdown_chunks_as_json`. -/
def kMd (maxW : Nat) (path content : String) : Nat :=
  if isMdPath path then (chunk_by_sentences content maxW).length else 0

/-- Identifier stream of a run: for each file, one pair per unit, the
unit indices counting from 1. -/
def idShape : Nat → List Nat → List (Nat × Nat)
  | _, [] => []
  | i, k :: ks => (List.range' 1 k).map (fun j => (i, j)) ++ idShape (i + 1) ks

/-- Lexicographic order on identifier pairs. -/
def lexLt (a b : Nat × Nat) : Prop := a.1 < b.1 ∨ (a.1 = b.1 ∧ a.2 < b.2)

/-- Well formed identifier stream: pairwise distinct, lexicographically
increasing, and within each file the unit indices are exactly
1, 2, ... with no gap. -/
def goodIds (ids : List (Nat × Nat)) : Prop :=
  ids.Pairwise lexLt ∧
  ids.Pairwise (fun a b => a ≠ b) ∧
  ∀ i, ((ids.filter (fun p => p.1 == i)).map Prod.snd) =
    List.range' 1 ((ids.filter (fun p => p.1 == i)).length)

/-- Identifier pairs of a code unit stream. -/
def codeIds (us : List CodeUnit) : List (Nat × Nat) :=
  us.map fun u => (u.fileIdx, u.unitIdx)

/-- Identifier pairs of a comment unit stream. -/
def commentIds (us : List CommentUnit) : List (Nat × Nat) :=
  us.map fun u => (u.fileIdx, u.unitIdx)

/-- Identifier pairs of a text unit stream. -/
def textIds (us : List TextUnit) : List (Nat × Nat) :=
  us.map fun u => (u.fileIdx, u.unitIdx)

/-- A long blob of repeated single character words, for concrete over
budget inputs. -/
def wordsBlob (n : Nat) : String := String.mk ((List.replicate n [' ', 'w']).flatten)

/-- First single line Java method of the two method scenario. -/
def jm1 : String := "void alpha() \x7b int acc = 0;" ++ wordsBlob 300 ++ " \x7d"

/-- Second single line Java method of the two method scenario. -/
def jm2 : String := "void beta() \x7b int acc = 1;" ++ wordsBlob 300 ++ " \x7d"

/-- Two single line Java methods in one file. -/
def c6code : String := String.mk (jm1.data ++ '\n' :: jm2.data)

/-- Two multi line Java methods in one file, each self contained with
balanced braces, more than 512 words in total. -/
def c6cexCode : String :=
  "void alpha() \x7b" ++ wordsBlob 300 ++ "\n  return;\n\x7d\nvoid beta() \x7b"
    ++ wordsBlob 300 ++ "\n  return;\n\x7d"

/-! ### Word counting lemmas -/

theorem wcAux_append_space (a b : List Char) (f : Bool) :
    wcAux (a ++ ' ' :: b) f = wcAux a f + wcAux b false := by
  induction a generalizing f with
  | nil => simp [wcAux, isPyWS]
  | cons c a ih =>
      by_cases h : isPyWS c = true
      · simp [wcAux, h, ih]
      · simp [wcAux, h, ih, Nat.add_assoc]

theorem joinSp_data_cons (s : String) (r : String) (rest : List String) :
    (joinSp (s :: r :: rest)).data = s.data ++ ' ' :: (joinSp (r :: rest)).data := by
  show (s ++ " " ++ joinSp (r :: rest)).data = _
  simp [String.data_append]

theorem pyWordCount_joinSp (g : List String) :
    pyWordCount (joinSp g) = (g.map pyWordCount).sum := by
  induction g with
  | nil => rfl
  | cons s rest ih =>
      cases rest with
      | nil => simp [joinSp, pyWordCount]
      | cons r rs =>
          show wcAux (joinSp (s :: r :: rs)).data false = _
          rw [joinSp_data_cons, wcAux_append_space]
          have h1 : wcAux s.data false = pyWordCount s := rfl
          have h2 : wcAux (joinSp (r :: rs)).data false = pyWordCount (joinSp (r :: rs)) := rfl
          rw [h1, h2, ih]
          simp

theorem pySplitAux_length (cs : List Char) (acc : List Char) :
    (pySplitAux cs acc).length = wcAux cs (!acc.isEmpty) + (if acc.isEmpty then 0 else 1) := by
  induction cs generalizing acc with
  | nil => by_cases h : acc.isEmpty <;> simp [pySplitAux, wcAux, h]
  | cons c cs ih =>
      by_cases hw : isPyWS c = true
      · by_cases ha : acc.isEmpty <;>
          simp [pySplitAux, wcAux, hw, ha, ih]
      · have h0 : ((c :: acc).isEmpty) = false := rfl
        by_cases ha : acc.isEmpty
        · simp [pySplitAux, wcAux, hw, ha, ih, h0]
          omega
        · simp [pySplitAux, wcAux, hw, ha, ih, h0]

theorem pyWordCount_eq_pySplit_length (s : String) :
    pyWordCount s = (pySplit s).length := by
  show wcAux s.data false = ((pySplitAux s.data []).map String.mk).length
  rw [List.length_map, pySplitAux_length]
  rfl

/-! ### The greedy packing loop -/

theorem chunkGo_spec (maxW : Nat) :
    ∀ (ss cur : List String) (count : Nat),
      count = (cur.map pyWordCount).sum →
      (count ≤ maxW ∨ ∃ s, cur = [s] ∧ maxW < pyWordCount s) →
      ∃ P : List (List String),
        P.flatten = cur.reverse ++ ss ∧
        chunkGo maxW ss cur count = P.map (fun g => joinSp g) ∧
        (∀ g ∈ P, g ≠ []) ∧
        (∀ g ∈ P, pyWordCount (joinSp g) ≤ maxW ∨ ∃ s, g = [s] ∧ maxW < pyWordCount s) := by
  intro ss
  induction ss with
  | nil =>
      intro cur count hc hok
      by_cases hcur : cur = []
      · exact ⟨[], by simp [hcur], by simp [chunkGo, hcur], by simp, by simp⟩
      · refine ⟨[cur.reverse], by simp, by simp [chunkGo, hcur], ?_, ?_⟩
        · simp [hcur]
        · intro g hg
          simp at hg
          subst hg
          rcases hok with h | ⟨s, hs, h⟩
          · left
            rw [pyWordCount_joinSp, List.map_reverse, List.sum_reverse, ← hc]
            exact h
          · right
            exact ⟨s, by simp [hs], h⟩
  | cons s ss ih =>
      intro cur count hc hok
      show ∃ P, _ ∧ (if count + pyWordCount s > maxW ∧ cur ≠ [] then
        joinSp cur.reverse :: chunkGo maxW ss [s] (pyWordCount s)
        else chunkGo maxW ss (s :: cur) (count + pyWordCount s)) = _ ∧ _ ∧ _
      by_cases hcond : count + pyWordCount s > maxW ∧ cur ≠ []
      · rw [if_pos hcond]
        have hok' : pyWordCount s ≤ maxW ∨ ∃ t, [s] = [t] ∧ maxW < pyWordCount t := by
          rcases le_or_lt (pyWordCount s) maxW with h | h
          · exact Or.inl h
          · exact Or.inr ⟨s, rfl, h⟩
        obtain ⟨P, hflat, heq, hne, hbd⟩ := ih [s] (pyWordCount s) (by simp) hok'
        refine ⟨cur.reverse :: P, ?_, ?_, ?_, ?_⟩
        · simp only [List.flatten_cons, hflat]
          simp
        · simp [heq]
        · intro g hg
          rcases List.mem_cons.mp hg with hg1 | hg1
          · simp [hg1, hcond.2]
          · exact hne g hg1
        · intro g hg
          rcases List.mem_cons.mp hg with hg1 | hg1
          · subst hg1
            rcases hok with h | ⟨t, ht, h⟩
            · left
              rw [pyWordCount_joinSp, List.map_reverse, List.sum_reverse, ← hc]
              exact h
            · right
              exact ⟨t, by simp [ht], h⟩
          · exact hbd g hg1
      · rw [if_neg hcond]
        have hc' : count + pyWordCount s = ((s :: cur).map pyWordCount).sum := by
          simp [← hc]
          omega
        have hok' : count + pyWordCount s ≤ maxW ∨
            ∃ t, s :: cur = [t] ∧ maxW < pyWordCount t := by
          rcases le_or_lt (count + pyWordCount s) maxW with h | h
          · exact Or.inl h
          · have hcur : cur = [] := by
              by_contra hne
              exact hcond ⟨h, hne⟩
            subst hcur
            rcases le_or_lt (pyWordCount s) maxW with h2 | h2
            · left
              have : count = 0 := by simp at hc; exact hc
              omega
            · exact Or.inr ⟨s, rfl, h2⟩
        obtain ⟨P, hflat, heq, hne, hbd⟩ := ih (s :: cur) (count + pyWordCount s) hc' hok'
        refine ⟨P, ?_, heq, hne, hbd⟩
        rw [hflat]
        simp

theorem chunk_by_sentences_partition (text : String) (maxW : Nat) :
    ∃ P : List (List String),
      P.flatten = split_text_into_sentences text ∧
      (∀ g ∈ P, g ≠ []) ∧
      chunk_by_sentences text maxW = P.map (fun g => joinSp g) ∧
      (∀ g ∈ P, pyWordCount (joinSp g) ≤ maxW ∨ ∃ s, g = [s] ∧ maxW < pyWordCount s) := by
  obtain ⟨P, hflat, heq, hne, hbd⟩ :=
    chunkGo_spec maxW (split_text_into_sentences text) [] 0 (by simp) (Or.inl (Nat.zero_le _))
  exact ⟨P, by simpa using hflat, hne, heq, hbd⟩

/-- C1: every chunk produced by `chunk_by_sentences` has word count (the
whitespace token count the code accumulates, `len(s.split())`) at most
the budget, except a chunk that is exactly one sentence whose own word
count exceeds the budget, emitted alone and over budget. -/
theorem c1_chunk_word_budget (text : String) (maxW : Nat) (c : String)
    (hc : c ∈ chunk_by_sentences text maxW) :
    pyWordCount c ≤ maxW ∨
    ∃ s ∈ split_text_into_sentences text, c = s ∧ maxW < pyWordCount s := by
  obtain ⟨P, hflat, hne, heq, hbd⟩ := chunk_by_sentences_partition text maxW
  rw [heq] at hc
  obtain ⟨g, hg, hgc⟩ := List.mem_map.mp hc
  rcases hbd g hg with h | ⟨s, hgs, h⟩
  · left
    rw [← hgc]
    exact h
  · right
    refine ⟨s, ?_, ?_, h⟩
    · rw [← hflat]
      exact List.mem_flatten.mpr ⟨g, hg, by simp [hgs]⟩
    · rw [← hgc, hgs]
      rfl

/-- C1 witness at a concrete input. -/
theorem c1_chunk_word_budget_witness :
    "Hi. Bye" ∈ chunk_by_sentences "Hi. Bye" 512 ∧
    (pyWordCount "Hi. Bye" ≤ 512 ∨
      ∃ s ∈ split_text_into_sentences "Hi. Bye", "Hi. Bye" = s ∧ 512 < pyWordCount s) :=
  ⟨by decide, c1_chunk_word_budget "Hi. Bye" 512 "Hi. Bye" (by decide)⟩

/-- C9: the chunker assigns each sentence to exactly one chunk in the
original order: some partition of the sentence sequence into nonempty
consecutive groups gives exactly the emitted chunks, each chunk being the
single space join of its group. -/
theorem c9_chunks_partition_sentences (text : String) (maxW : Nat) :
    ∃ P : List (List String),
      P.flatten = split_text_into_sentences text ∧
      (∀ g ∈ P, g ≠ []) ∧
      chunk_by_sentences text maxW = P.map (fun g => joinSp g) := by
  obtain ⟨P, hflat, hne, heq, _⟩ := chunk_by_sentences_partition text maxW
  exact ⟨P, hflat, hne, heq⟩

/-- Refinement of the chunking loop by the generic packer at the
whitespace word count. -/
theorem chunkGo_eq_pack (maxW : Nat) (ss cur : List String) (count : Nat) :
    chunkGo maxW ss cur count = chunkPackGo pyWordCount maxW ss cur count := by
  induction ss generalizing cur count with
  | nil => rfl
  | cons s ss ih =>
      show (if count + pyWordCount s > maxW ∧ cur ≠ [] then
          joinSp cur.reverse :: chunkGo maxW ss [s] (pyWordCount s)
          else chunkGo maxW ss (s :: cur) (count + pyWordCount s)) = _
      rw [show chunkPackGo pyWordCount maxW (s :: ss) cur count =
        (if count + pyWordCount s > maxW ∧ cur ≠ [] then
          joinSp cur.reverse :: chunkPackGo pyWordCount maxW ss [s] (pyWordCount s)
          else chunkPackGo pyWordCount maxW ss (s :: cur) (count + pyWordCount s)) from rfl]
      by_cases h : count + pyWordCount s > maxW ∧ cur ≠ []
      · rw [if_pos h, if_pos h, ih]
      · rw [if_neg h, if_neg h, ih]

/-- C7 (amended): the word count the packer adds per sentence is the
whitespace token count `len(s.split())`, not the alphanumeric run count:
the chunker equals the generic greedy packer instantiated with the
whitespace word count, which itself is the length of `s.split()`. -/
theorem c7_packer_uses_split_count :
    (∀ s : String, pyWordCount s = (pySplit s).length) ∧
    ∀ text maxW, chunk_by_sentences text maxW = chunkPackBy pyWordCount maxW text :=
  ⟨pyWordCount_eq_pySplit_length,
   fun text maxW => chunkGo_eq_pack maxW (split_text_into_sentences text) [] 0⟩

/-- C7 counterexample: the packer does not use the alphanumeric run
tokenizer; on this input the chunker and the alphanumeric run packer
disagree. -/
theorem c7_not_alnum_count :
    chunk_by_sentences "a,a a,a a,a. b" 4 ≠ chunkPackBy countWords 4 "a,a a,a a,a. b" := by
  decide

/-- C10: every language specific splitter returns a nonempty block list
on every input (the Python splitter for every parse oracle outcome),
falling back to the single whole blob. -/
theorem c10_splitters_nonempty :
    (∀ parsed code, split_python_code parsed code ≠ []) ∧
    (∀ code, split_java_code code ≠ []) ∧
    (∀ code, split_js_code code ≠ []) ∧
    (∀ code, split_go_code code ≠ []) ∧
    (∀ code, split_ruby_code code ≠ []) := by
  refine ⟨?_, ?_, ?_, ?_, ?_⟩
  · intro parsed code
    cases parsed with
    | none => simp [split_python_code]
    | some bs => cases bs <;> simp [split_python_code]
  · intro code
    unfold split_java_code
    cases h : javaGo (pyLines code.data) 0 [] <;> simp
  · intro code
    unfold split_js_code
    cases h : jsGo (pyLines code.data) 0 [] <;> simp
  · intro code
    unfold split_go_code
    cases h : goGo (pyLines code.data) 0 [] <;> simp
  · intro code
    unfold split_ruby_code
    cases h : rubyGo (pyLines code.data) 0 [] <;> simp

/-- C8: a traversal error on the repository root propagates out of the
pipeline (non zero exit), while a failed read of one file is skipped:
the output is that of the remaining files and the run still completes. -/
theorem c8_error_handling :
    (∀ (e : String) (readOf : String → Except String String) (te ce : List String),
      mainPipeline (.error e) readOf te ce = .error e) ∧
    (∀ (pre post : List (String × Except String String)) (path e : String),
      save_code_comment_split (pre ++ (path, .error e) :: post) =
        save_code_comment_split (pre ++ post)) := by
  constructor
  · intro e readOf te ce
    rfl
  · intro pre post path e
    induction pre with
    | nil => rfl
    | cons r pre ih =>
        obtain ⟨p, res⟩ := r
        cases res with
        | error err => simpa [save_code_comment_split] using ih
        | ok content => simp [save_code_comment_split, ih]

/-! ### Line classification (extractor) -/

theorem classifyLines_eq_filter (lines : List (List Char)) :
    classifyLines lines =
      (lines.filter (fun l => !isCommentLine l), lines.filter (fun l => isCommentLine l)) := by
  induction lines with
  | nil => rfl
  | cons l ls ih =>
      by_cases h : isCommentLine l = true <;>
        simp [classifyLines, ih, h]

theorem filter_length_partition (l : List (List Char)) (p : List Char → Bool) :
    (l.filter (fun a => !p a)).length + (l.filter p).length = l.length := by
  induction l with
  | nil => rfl
  | cons a l ih =>
      by_cases h : p a = true <;> simp [h, ← ih] <;> omega

/-- C3 (amended): the extractor partitions the lines remaining after
block comment removal: the code lines and the comment lines are the two
complementary ordered filters of those lines, so each such line is
classified as exactly one of the two and order is preserved. -/
theorem c3_partition_after_block_removal (content : String) :
    classifyLines (pyLines (removeBlockComments content.data)) =
      ((pyLines (removeBlockComments content.data)).filter (fun l => !isCommentLine l),
       (pyLines (removeBlockComments content.data)).filter (fun l => isCommentLine l)) ∧
    ((pyLines (removeBlockComments content.data)).filter (fun l => !isCommentLine l)).length +
      ((pyLines (removeBlockComments content.data)).filter (fun l => isCommentLine l)).length =
      (pyLines (removeBlockComments content.data)).length :=
  ⟨classifyLines_eq_filter _, filter_length_partition _ _⟩

/-- C3 counterexample: the line of a block comment is removed before
classification, so it ends up in neither class: the input has one
original line, and both classes are empty. -/
theorem c3_block_comment_line_lost :
    pyLines ("/* x */" : String).data = [("/* x */" : String).data] ∧
    classifyLines (pyLines (removeBlockComments ("/* x */" : String).data)) = ([], []) := by
  constructor
  · decide
  · decide

/-! ### Identifier streams -/

theorem withIdx_ids {α : Type} (idx : Nat) (xs : List α) :
    ∀ s, (withIdx s xs).map (fun jb => (idx, jb.1)) =
      (List.range' s xs.length).map (fun j => (idx, j)) := by
  induction xs with
  | nil => intro s; rfl
  | cons x xs ih =>
      intro s
      simp only [withIdx, List.map_cons, List.length_cons, List.range'_succ, ih]

theorem unitsFor_ids (pyParse : String → Option (List String)) (maxW idx : Nat)
    (path code : String) :
    (unitsFor pyParse maxW idx path code).map (fun u => (u.fileIdx, u.unitIdx)) =
      (List.range' 1 (kCode pyParse maxW path code)).map (fun j => (idx, j)) := by
  unfold unitsFor kCode
  by_cases h : countWords code ≤ maxW
  · rw [if_pos h, if_pos h]
    rfl
  · rw [if_neg h, if_neg h, List.map_map]
    exact withIdx_ids idx _ 1

theorem commentUnitsFor_ids (idx : Nat) (path comments : String) :
    (commentUnitsFor idx path comments).map (fun u => (u.fileIdx, u.unitIdx)) =
      (List.range' 1 (kComment path comments)).map (fun j => (idx, j)) := by
  unfold commentUnitsFor kComment
  by_cases h : comments = ""
  · rw [if_pos h, if_pos h]
    rfl
  · rw [if_neg h, if_neg h, List.map_map]
    exact withIdx_ids idx _ 1

theorem mdUnitsFor_ids (maxW idx : Nat) (path content : String) :
    (mdUnitsFor maxW idx path content).map (fun u => (u.fileIdx, u.unitIdx)) =
      (List.range' 1 (kMd maxW path content)).map (fun j => (idx, j)) := by
  unfold mdUnitsFor kMd
  by_cases h : isMdPath path = true
  · rw [if_pos h, if_pos h, List.map_map]
    exact withIdx_ids idx _ 1
  · rw [if_neg h, if_neg h]
    rfl

theorem scbGo_ids (pyParse : String → Option (List String)) (maxW : Nat)
    (rs : List (String × String)) :
    ∀ start, codeIds (scbGo pyParse maxW start rs) =
      idShape start (rs.map fun r => kCode pyParse maxW r.1 r.2) := by
  induction rs with
  | nil => intro start; rfl
  | cons r rs ih =>
      intro start
      show codeIds (unitsFor pyParse maxW start r.1 r.2 ++ scbGo pyParse maxW (start + 1) rs) = _
      unfold codeIds at ih ⊢
      rw [List.map_append, unitsFor_ids, ih]
      rfl

theorem scmGo_ids (rs : List (String × String)) :
    ∀ start, commentIds (scmGo start rs) =
      idShape start (rs.map fun r => kComment r.1 r.2) := by
  induction rs with
  | nil => intro start; rfl
  | cons r rs ih =>
      intro start
      show commentIds (commentUnitsFor start r.1 r.2 ++ scmGo (start + 1) rs) = _
      unfold commentIds at ih ⊢
      rw [List.map_append, commentUnitsFor_ids, ih]
      rfl

theorem smGo_ids (maxW : Nat) (rs : List (String × String)) :
    ∀ start, textIds (smGo maxW start rs) =
      idShape start (rs.map fun r => kMd maxW r.1 r.2) := by
  induction rs with
  | nil => intro start; rfl
  | cons r rs ih =>
      intro start
      show textIds (mdUnitsFor maxW start r.1 r.2 ++ smGo maxW (start + 1) rs) = _
      unfold textIds at ih ⊢
      rw [List.map_append, mdUnitsFor_ids, ih]
      rfl

theorem mem_idShape_fst_ge (ks : List Nat) :
    ∀ i p, p ∈ idShape i ks → i ≤ p.1 := by
  induction ks with
  | nil => intro i p h; simp [idShape] at h
  | cons k ks ih =>
      intro i p h
      rcases List.mem_append.mp h with h1 | h1
      · obtain ⟨j, _, hj⟩ := List.mem_map.mp h1
        rw [← hj]
      · exact Nat.le_of_succ_le (ih (i + 1) p h1)

theorem idShape_pairwise_lex (ks : List Nat) :
    ∀ i, (idShape i ks).Pairwise lexLt := by
  induction ks with
  | nil => intro i; exact List.Pairwise.nil
  | cons k ks ih =>
      intro i
      rw [idShape, List.pairwise_append]
      refine ⟨?_, ih (i + 1), ?_⟩
      · refine List.Pairwise.map _ ?_ (List.pairwise_lt_range' 1 k 1 (by omega))
        intro a b hab
        exact Or.inr ⟨rfl, hab⟩
      · intro a ha b hb
        obtain ⟨j, _, hj⟩ := List.mem_map.mp ha
        have hge := mem_idShape_fst_ge ks (i + 1) b hb
        left
        rw [← hj]
        exact Nat.lt_of_lt_of_le (Nat.lt_succ_self i) hge

theorem idShape_filter (ks : List Nat) :
    ∀ i m, (((idShape i ks).filter (fun p => p.1 == m)).map Prod.snd) =
      List.range' 1 ((idShape i ks).filter (fun p => p.1 == m)).length := by
  induction ks with
  | nil => intro i m; rfl
  | cons k ks ih =>
      intro i m
      rw [idShape, List.filter_append]
      by_cases hm : m = i
      · subst hm
        have hblock : ((List.range' 1 k).map (fun j => (m, j))).filter (fun p => p.1 == m) =
            (List.range' 1 k).map (fun j => (m, j)) := by
          rw [List.filter_map]
          have hcomp : ((fun p : Nat × Nat => p.1 == m) ∘ fun j => (m, j)) = fun _ => true := by
            funext j
            simp
          rw [hcomp, List.filter_true]
        have hrest : (idShape (m + 1) ks).filter (fun p => p.1 == m) = [] := by
          rw [List.filter_eq_nil_iff]
          intro p hp
          have := mem_idShape_fst_ge ks (m + 1) p hp
          simp only [beq_iff_eq]
          omega
        rw [hblock, hrest, List.append_nil, List.map_map]
        have hsnd : (Prod.snd ∘ fun j : Nat => ((m : Nat), j)) = (id : Nat → Nat) := rfl
        rw [hsnd, List.map_id, List.length_map, List.length_range']
      · have hblock : ((List.range' 1 k).map (fun j => (i, j))).filter (fun p => p.1 == m) = [] := by
          rw [List.filter_eq_nil_iff]
          intro p hp
          obtain ⟨j, _, hj⟩ := List.mem_map.mp hp
          rw [← hj]
          simp only [beq_iff_eq]
          exact fun h => hm h.symm
        rw [hblock, List.nil_append]
        exact ih (i + 1) m

theorem goodIds_idShape (ks : List Nat) : goodIds (idShape 1 ks) := by
  refine ⟨idShape_pairwise_lex ks 1, ?_, idShape_filter ks 1⟩
  refine (idShape_pairwise_lex ks 1).imp ?_
  intro a b hab
  rintro rfl
  rcases hab with h | ⟨_, h⟩ <;> exact absurd h (by omega)

/-- C5: in each of the three output streams the identifier pairs
(fileIndex, unitIndex) of `global_id` are pairwise distinct and strictly
increasing in file index in input order, and within one file the unit
indices are exactly 1, 2, ... with no gaps. -/
theorem c5_global_ids_well_formed (pyParse : String → Option (List String))
    (maxW : Nat) (codeRecs comRecs mdRecs : List (String × String)) :
    goodIds (codeIds (split_code_blocks pyParse maxW codeRecs)) ∧
    goodIds (commentIds (split_comment_blocks comRecs)) ∧
    goodIds (textIds (save_markdown_chunks_as_json maxW mdRecs)) := by
  refine ⟨?_, ?_, ?_⟩
  · rw [split_code_blocks, scbGo_ids]
    exact goodIds_idShape _
  · rw [split_comment_blocks, scmGo_ids]
    exact goodIds_idShape _
  · rw [save_markdown_chunks_as_json, smGo_ids]
    exact goodIds_idShape _

/-! ### Short files produce a single block -/

theorem unitsFor_fileIdx (pyParse : String → Option (List String)) (maxW idx : Nat)
    (path code : String) :
    ∀ u ∈ unitsFor pyParse maxW idx path code, u.fileIdx = idx := by
  intro u hu
  unfold unitsFor at hu
  by_cases h : countWords code ≤ maxW
  · rw [if_pos h] at hu
    simp at hu
    rw [hu]
  · rw [if_neg h] at hu
    obtain ⟨jb, _, hjb⟩ := List.mem_map.mp hu
    rw [← hjb]

theorem mem_scbGo_fst_ge (pyParse : String → Option (List String)) (maxW : Nat)
    (rs : List (String × String)) :
    ∀ start u, u ∈ scbGo pyParse maxW start rs → start ≤ u.fileIdx := by
  induction rs with
  | nil => intro start u h; simp [scbGo] at h
  | cons r rs ih =>
      intro start u h
      rcases List.mem_append.mp h with h1 | h1
      · rw [unitsFor_fileIdx pyParse maxW start r.1 r.2 u h1]
      · exact Nat.le_of_succ_le (ih (start + 1) u h1)

theorem scbGo_filter_eq (pyParse : String → Option (List String)) (maxW : Nat)
    (rs : List (String × String)) :
    ∀ start i path code, rs[i]? = some (path, code) →
      (scbGo pyParse maxW start rs).filter (fun u => u.fileIdx == start + i) =
        unitsFor pyParse maxW (start + i) path code := by
  induction rs with
  | nil => intro start i path code h; simp at h
  | cons r rs ih =>
      intro start i path code h
      show (unitsFor pyParse maxW start r.1 r.2 ++ scbGo pyParse maxW (start + 1) rs).filter _ = _
      rw [List.filter_append]
      cases i with
      | zero =>
          simp only [List.getElem?_cons_zero, Option.some_inj] at h
          have h1 : (unitsFor pyParse maxW start r.1 r.2).filter
              (fun u => u.fileIdx == start + 0) = unitsFor pyParse maxW start r.1 r.2 := by
            rw [List.filter_eq_self]
            intro u hu
            rw [unitsFor_fileIdx pyParse maxW start r.1 r.2 u hu]
            simp
          have h2 : (scbGo pyParse maxW (start + 1) rs).filter
              (fun u => u.fileIdx == start + 0) = [] := by
            rw [List.filter_eq_nil_iff]
            intro u hu
            have := mem_scbGo_fst_ge pyParse maxW rs (start + 1) u hu
            simp only [beq_iff_eq]
            omega
          rw [h1, h2, List.append_nil, h, Nat.add_zero]
      | succ i =>
          have h1 : (unitsFor pyParse maxW start r.1 r.2).filter
              (fun u => u.fileIdx == start + (i + 1)) = [] := by
            rw [List.filter_eq_nil_iff]
            intro u hu
            rw [unitsFor_fileIdx pyParse maxW start r.1 r.2 u hu]
            simp only [beq_iff_eq]
            omega
          have h3 : start + 1 + i = start + (i + 1) := by omega
          have h2 := ih (start + 1) i path code (by simpa using h)
          rw [h1, List.nil_append, ← h3, h2]

/-- C4: a record whose code (as produced by the extractor, hence already
trimmed) has alphanumeric word count within the budget contributes
exactly one block to the `split_code_blocks` stream, with unit index 1,
containing that code verbatim, which is the trimmed join of the code
lines of the original content. -/
theorem c4_short_file_single_block (pyParse : String → Option (List String))
    (maxW : Nat) (records : List (String × String)) (i : Nat)
    (path content code : String)
    (hget : records[i]? = some (path, code))
    (hcode : code = (split_code_and_comments content).1)
    (hwc : countWords code ≤ maxW) :
    (split_code_blocks pyParse maxW records).filter (fun u => u.fileIdx == 1 + i) =
      [⟨1 + i, 1, path, detect_lang path, code⟩] ∧
    code.data =
      stripBoth (joinNl (classifyLines (pyLines (removeBlockComments content.data))).1) := by
  constructor
  · rw [split_code_blocks, scbGo_filter_eq pyParse maxW records 1 i path code hget]
    unfold unitsFor
    rw [if_pos hwc]
  · rw [hcode]
    rfl

/-- C4 witness at a concrete record. -/
theorem c4_short_file_single_block_witness :
    (split_code_blocks (fun _ => none) 512 [("a.py", "x = 1")]).filter
        (fun u => u.fileIdx == 1 + 0) =
      [⟨1 + 0, 1, "a.py", detect_lang "a.py", "x = 1"⟩] ∧
    ("x = 1" : String).data =
      stripBoth (joinNl (classifyLines (pyLines
        (removeBlockComments ("x = 1" : String).data))).1) :=
  c4_short_file_single_block (fun _ => none) 512 [("a.py", "x = 1")] 0 "a.py" "x = 1" "x = 1"
    (by decide) (by decide) (by decide)

/-! ### Segment and whitespace normalization lemmas -/

theorem splitOnChar_ne_nil (sep : Char) (cs : List Char) : splitOnChar sep cs ≠ [] := by
  cases cs with
  | nil => simp [splitOnChar]
  | cons c rest =>
      unfold splitOnChar
      by_cases h : c = sep
      · simp [h]
      · rw [if_neg h]
        cases splitOnChar sep rest <;> simp

theorem splitOnChar_cons_sep (sep : Char) (x : List Char) :
    splitOnChar sep (sep :: x) = [] :: splitOnChar sep x := by
  simp [splitOnChar]

theorem splitOnChar_cons_ne (sep c : Char) (h : ¬c = sep) (x : List Char) :
    splitOnChar sep (c :: x) =
      match splitOnChar sep x with
      | [] => [[c]]
      | l :: ls => (c :: l) :: ls := by
  conv_lhs => rw [splitOnChar]
  rw [if_neg h]

theorem splitOnChar_append_sep (sep : Char) (a b : List Char) :
    splitOnChar sep (a ++ sep :: b) = splitOnChar sep a ++ splitOnChar sep b := by
  induction a with
  | nil => rw [List.nil_append, splitOnChar_cons_sep]; rfl
  | cons c a ih =>
      rw [List.cons_append]
      by_cases h : c = sep
      · subst h
        rw [splitOnChar_cons_sep, splitOnChar_cons_sep, ih]
        rfl
      · rw [splitOnChar_cons_ne sep c h, splitOnChar_cons_ne sep c h, ih]
        cases hsa : splitOnChar sep a with
        | nil => exact absurd hsa (splitOnChar_ne_nil sep a)
        | cons l ls => rfl

theorem mem_splitOnChar_no_sep (sep : Char) (cs : List Char) :
    ∀ l ∈ splitOnChar sep cs, sep ∉ l := by
  induction cs with
  | nil =>
      intro l hl
      simp [splitOnChar] at hl
      simp [hl]
  | cons c rest ih =>
      intro l hl
      unfold splitOnChar at hl
      by_cases h : c = sep
      · rw [if_pos h] at hl
        rcases List.mem_cons.mp hl with h1 | h1
        · simp [h1]
        · exact ih l h1
      · rw [if_neg h] at hl
        cases hsr : splitOnChar sep rest with
        | nil => exact absurd hsr (splitOnChar_ne_nil sep rest)
        | cons m ms =>
            rw [hsr] at hl
            rcases List.mem_cons.mp hl with h1 | h1
            · subst h1
              intro hmem
              rcases List.mem_cons.mp hmem with h2 | h2
              · exact h h2.symm
              · exact ih m (by rw [hsr]; exact List.mem_cons_self m ms) h2
            · exact ih l (by rw [hsr]; exact List.mem_cons_of_mem m h1)

theorem splitOnChar_no_sep (sep : Char) (cs : List Char) (h : sep ∉ cs) :
    splitOnChar sep cs = [cs] := by
  induction cs with
  | nil => rfl
  | cons c rest ih =>
      have hc : ¬c = sep := fun hcs => h (by simp [hcs])
      have hr : sep ∉ rest := fun hm => h (List.mem_cons_of_mem c hm)
      unfold splitOnChar
      rw [if_neg hc, ih hr]

theorem nrm_nil : nrm [] = [] := rfl

theorem nrm_append_nl (a b : List Char) : nrm (a ++ '\n' :: b) = nrm a ++ nrm b := by
  unfold nrm
  rw [splitOnChar_append_sep, List.map_append, List.filter_append]

theorem nrm_cons_nl (x : List Char) : nrm ('\n' :: x) = nrm x := by
  have h := nrm_append_nl [] x
  simpa using h

theorem pyLines_filter_eq_nrm (cs : List Char) :
    ((pyLines cs).map stripBoth).filter (fun l => l ≠ []) = nrm cs := by
  unfold pyLines nrm
  by_cases h : cs = []
  · subst h
    rfl
  · rw [if_neg h]
    by_cases hl : (splitOnChar '\n' cs).getLast? = some []
    · rw [if_pos hl]
      have hsplit := List.dropLast_append_getLast? [] hl
      calc ((splitOnChar '\n' cs).dropLast.map stripBoth).filter (fun l => l ≠ [])
          = (((splitOnChar '\n' cs).dropLast.map stripBoth).filter (fun l => l ≠ [])) ++
            (([([] : List Char)].map stripBoth).filter (fun l => l ≠ [])) := by
            simp [stripBoth, stripL, stripR]
        _ = ((((splitOnChar '\n' cs).dropLast ++ [[]]).map stripBoth).filter (fun l => l ≠ [])) := by
            rw [List.map_append, List.filter_append]
        _ = ((splitOnChar '\n' cs).map stripBoth).filter (fun l => l ≠ []) := by rw [hsplit]
    · rw [if_neg hl]

theorem normLines_mk (cs : List Char) : normLines (String.mk cs) = nrm cs :=
  pyLines_filter_eq_nrm cs

theorem mem_pyLines_no_nl (cs : List Char) : ∀ l ∈ pyLines cs, '\n' ∉ l := by
  intro l hl
  unfold pyLines at hl
  by_cases h : cs = []
  · rw [if_pos h] at hl
    simp at hl
  · rw [if_neg h] at hl
    by_cases hlast : (splitOnChar '\n' cs).getLast? = some []
    · rw [if_pos hlast] at hl
      exact mem_splitOnChar_no_sep '\n' cs l (List.dropLast_subset _ hl)
    · rw [if_neg hlast] at hl
      exact mem_splitOnChar_no_sep '\n' cs l hl

theorem stripL_cons_ws (c : Char) (l : List Char) (h : isPyWS c = true) :
    stripL (c :: l) = stripL l := by
  unfold stripL
  rw [List.dropWhile_cons, if_pos h]

theorem stripL_cons_not_ws (c : Char) (l : List Char) (h : isPyWS c = false) :
    stripL (c :: l) = c :: l := by
  unfold stripL
  rw [List.dropWhile_cons, if_neg (by simp [h])]

theorem stripR_snoc_ws (c : Char) (l : List Char) (h : isPyWS c = true) :
    stripR (l ++ [c]) = stripR l := by
  unfold stripR
  rw [List.reverse_append, List.reverse_singleton, List.singleton_append,
    stripL_cons_ws c l.reverse h]

theorem stripR_snoc_not_ws (c : Char) (l : List Char) (h : isPyWS c = false) :
    stripR (l ++ [c]) = l ++ [c] := by
  unfold stripR
  rw [List.reverse_append, List.reverse_singleton, List.singleton_append,
    stripL_cons_not_ws c l.reverse h]
  simp

theorem stripBoth_cons_ws (c : Char) (l : List Char) (h : isPyWS c = true) :
    stripBoth (c :: l) = stripBoth l := by
  unfold stripBoth
  rw [stripL_cons_ws c l h]

theorem stripBoth_snoc_ws (c : Char) (l : List Char) (h : isPyWS c = true) :
    stripBoth (l ++ [c]) = stripBoth l := by
  unfold stripBoth stripL
  rw [List.dropWhile_append]
  by_cases he : (List.dropWhile isPyWS l).isEmpty
  · rw [if_pos he]
    have h1 : List.dropWhile isPyWS [c] = [] := by
      rw [List.dropWhile_cons, if_pos h]
      rfl
    have h2 : List.dropWhile isPyWS l = [] := by
      rw [List.isEmpty_iff] at he
      exact he
    rw [h1, h2]
  · rw [if_neg he]
    exact stripR_snoc_ws c (List.dropWhile isPyWS l) h

theorem splitOnChar_snoc_ne (sep c : Char) (h : ¬c = sep) (x : List Char) :
    splitOnChar sep (x ++ [c]) = appendLast (splitOnChar sep x) c := by
  induction x with
  | nil =>
      rw [List.nil_append, splitOnChar_cons_ne sep c h]
      rfl
  | cons d x ih =>
      rw [List.cons_append]
      by_cases hd : d = sep
      · subst hd
        rw [splitOnChar_cons_sep, splitOnChar_cons_sep, ih]
        cases hsx : splitOnChar d x with
        | nil => exact absurd hsx (splitOnChar_ne_nil d x)
        | cons l ls => rfl
      · rw [splitOnChar_cons_ne sep d hd, splitOnChar_cons_ne sep d hd, ih]
        cases hsx : splitOnChar sep x with
        | nil => exact absurd hsx (splitOnChar_ne_nil sep x)
        | cons l ls =>
            cases ls with
            | nil => rfl
            | cons m ms => rfl

theorem filter_strip_appendLast (c : Char) (h : isPyWS c = true) :
    ∀ S : List (List Char), S ≠ [] →
      ((appendLast S c).map stripBoth).filter (fun l => l ≠ []) =
        (S.map stripBoth).filter (fun l => l ≠ []) := by
  intro S
  induction S with
  | nil => intro hne; exact absurd rfl hne
  | cons l S ih =>
      intro _
      cases S with
      | nil =>
          show (([l ++ [c]]).map stripBoth).filter (fun l => l ≠ []) = _
          rw [List.map_singleton, List.map_singleton, stripBoth_snoc_ws c l h]
      | cons m ms =>
          show ((l :: appendLast (m :: ms) c).map stripBoth).filter (fun l => l ≠ []) = _
          rw [List.map_cons, List.map_cons, List.filter_cons, List.filter_cons,
            ih (by simp)]

theorem nrm_snoc_ws (c : Char) (h : isPyWS c = true) (x : List Char) :
    nrm (x ++ [c]) = nrm x := by
  by_cases hc : c = '\n'
  · subst hc
    rw [nrm_append_nl x [], nrm_nil, List.append_nil]
  · unfold nrm
    rw [splitOnChar_snoc_ne '\n' c hc, filter_strip_appendLast c h _ (splitOnChar_ne_nil _ _)]

theorem nrm_cons_ws (c : Char) (h : isPyWS c = true) (x : List Char) :
    nrm (c :: x) = nrm x := by
  by_cases hc : c = '\n'
  · subst hc
    exact nrm_cons_nl x
  · unfold nrm
    rw [splitOnChar_cons_ne '\n' c hc]
    cases hsx : splitOnChar '\n' x with
    | nil => exact absurd hsx (splitOnChar_ne_nil _ _)
    | cons l ls =>
        rw [List.map_cons, List.map_cons, List.filter_cons, List.filter_cons,
          stripBoth_cons_ws c l h]

theorem nrm_stripL (x : List Char) : nrm (stripL x) = nrm x := by
  induction x with
  | nil => rfl
  | cons c x ih =>
      by_cases h : isPyWS c = true
      · rw [stripL_cons_ws c x h, ih, nrm_cons_ws c h x]
      · rw [stripL_cons_not_ws c x (by simpa using h)]

theorem nrm_stripR (x : List Char) : nrm (stripR x) = nrm x := by
  induction x using List.reverseRecOn with
  | nil => rfl
  | append_singleton y c ih =>
      by_cases h : isPyWS c = true
      · rw [stripR_snoc_ws c y h, ih, nrm_snoc_ws c h y]
      · rw [stripR_snoc_not_ws c y (by simpa using h)]

theorem nrm_stripBoth (x : List Char) : nrm (stripBoth x) = nrm x := by
  unfold stripBoth
  rw [nrm_stripR, nrm_stripL]

theorem nrm_joinNl : ∀ L : List (List Char), (∀ l ∈ L, '\n' ∉ l) →
    nrm (joinNl L) = (L.map stripBoth).filter (fun l => l ≠ []) := by
  intro L
  induction L with
  | nil => intro _; rfl
  | cons l L ih =>
      intro h
      cases L with
      | nil =>
          show nrm l = _
          unfold nrm
          rw [splitOnChar_no_sep '\n' l (h l (List.mem_cons_self l []))]
      | cons m ms =>
          show nrm (l ++ '\n' :: joinNl (m :: ms)) = _
          rw [nrm_append_nl, ih (fun x hx => h x (List.mem_cons_of_mem l hx))]
          have hnl : '\n' ∉ l := h l (List.mem_cons_self l (m :: ms))
          unfold nrm
          rw [splitOnChar_no_sep '\n' l hnl]
          simp only [List.map_cons, List.map_nil, List.filter_cons]
          by_cases hsl : stripBoth l = [] <;> simp [hsl, List.filter_cons]

theorem nrm_block (B : List (List Char)) (h : ∀ l ∈ B, '\n' ∉ l) :
    nrm (stripBoth (joinNl B)) = (B.map stripBoth).filter (fun l => l ≠ []) := by
  rw [nrm_stripBoth, nrm_joinNl B h]

theorem fs_append (A B : List (List Char)) :
    (((A ++ B).map stripBoth).filter (fun l => l ≠ [])) =
      ((A.map stripBoth).filter (fun l => l ≠ [])) ++
        ((B.map stripBoth).filter (fun l => l ≠ [])) := by
  rw [List.map_append, List.filter_append]

/-- End of input flush common to the four splitter loops. -/
theorem nrm_flush (buf : List (List Char)) (h : ∀ l ∈ buf, '\n' ∉ l) :
    (((if buf.isEmpty then []
       else if (stripBoth (joinNl buf.reverse)).isEmpty then []
       else [stripBoth (joinNl buf.reverse)]) : List (List Char)).map nrm).flatten =
      (buf.reverse.map stripBoth).filter (fun l => l ≠ []) := by
  have hrev : ∀ l ∈ buf.reverse, '\n' ∉ l := fun l hl => h l (List.mem_reverse.mp hl)
  by_cases hb : buf.isEmpty
  · rw [if_pos hb]
    rw [List.isEmpty_iff] at hb
    subst hb
    rfl
  · rw [if_neg hb]
    by_cases hr : (stripBoth (joinNl buf.reverse)).isEmpty
    · rw [if_pos hr]
      rw [List.isEmpty_iff] at hr
      have := nrm_block buf.reverse hrev
      rw [hr] at this
      rw [← this]
      rfl
    · rw [if_neg hr]
      have := nrm_block buf.reverse hrev
      simp only [List.map_cons, List.map_nil, List.flatten_cons, List.flatten_nil,
        List.append_nil]
      exact this

theorem javaGo_nrm : ∀ (ls : List (List Char)) (stack : Nat) (buf : List (List Char)),
    (∀ l ∈ buf, '\n' ∉ l) → (∀ l ∈ ls, '\n' ∉ l) →
    ((javaGo ls stack buf).map nrm).flatten =
      ((buf.reverse ++ ls).map stripBoth).filter (fun l => l ≠ []) := by
  intro ls
  induction ls with
  | nil =>
      intro stack buf hbuf _
      rw [List.append_nil]
      exact nrm_flush buf hbuf
  | cons line ls ih =>
      intro stack buf hbuf hls
      have hline : '\n' ∉ line := hls line (List.mem_cons_self line ls)
      have hls' : ∀ l ∈ ls, '\n' ∉ l := fun l hl => hls l (List.mem_cons_of_mem line hl)
      have hbl : ∀ l ∈ buf.reverse ++ [line], '\n' ∉ l := by
        intro l hl
        rcases List.mem_append.mp hl with h1 | h1
        · exact hbuf l (List.mem_reverse.mp h1)
        · rw [List.mem_singleton.mp h1]
          exact hline
      show ((if javaStack stack line = 0 ∧ hasChar '{' line then
          stripBoth (joinNl (buf.reverse ++ [line])) :: javaGo ls 0 []
        else javaGo ls (javaStack stack line) (line :: buf)).map nrm).flatten = _
      by_cases hcond : javaStack stack line = 0 ∧ hasChar '{' line
      · rw [if_pos hcond]
        rw [List.map_cons, List.flatten_cons, ih 0 [] (by simp) hls',
          nrm_block (buf.reverse ++ [line]) hbl]
        rw [show buf.reverse ++ line :: ls = (buf.reverse ++ [line]) ++ ls by simp,
          fs_append (buf.reverse ++ [line]) ls]
        simp
      · rw [if_neg hcond]
        rw [ih (javaStack stack line) (line :: buf)
          (by intro l hl
              rcases List.mem_cons.mp hl with h1 | h1
              · rw [h1]; exact hline
              · exact hbuf l h1) hls']
        rw [show (line :: buf).reverse ++ ls = buf.reverse ++ line :: ls by simp]

theorem jsGo_nrm : ∀ (ls : List (List Char)) (depth : Int) (buf : List (List Char)),
    (∀ l ∈ buf, '\n' ∉ l) → (∀ l ∈ ls, '\n' ∉ l) →
    ((jsGo ls depth buf).map nrm).flatten =
      ((buf.reverse ++ ls).map stripBoth).filter (fun l => l ≠ []) := by
  intro ls
  induction ls with
  | nil =>
      intro depth buf hbuf _
      rw [List.append_nil]
      exact nrm_flush buf hbuf
  | cons line ls ih =>
      intro depth buf hbuf hls
      have hline : '\n' ∉ line := hls line (List.mem_cons_self line ls)
      have hls' : ∀ l ∈ ls, '\n' ∉ l := fun l hl => hls l (List.mem_cons_of_mem line hl)
      have hbuf' : ∀ l ∈ line :: buf, '\n' ∉ l := by
        intro l hl
        rcases List.mem_cons.mp hl with h1 | h1
        · rw [h1]; exact hline
        · exact hbuf l h1
      have hbl : ∀ l ∈ (line :: buf).reverse, '\n' ∉ l :=
        fun l hl => hbuf' l (List.mem_reverse.mp hl)
      have hstep : (line :: buf).reverse ++ ls = buf.reverse ++ line :: ls := by simp
      show ((if jsCommentLine line then jsGo ls depth (line :: buf)
        else if jsDepth depth line = 0 ∧ ¬(line :: buf).isEmpty ∧ hasChar '{' line then
          if (stripBoth (joinNl (line :: buf).reverse)).isEmpty then
            jsGo ls (jsDepth depth line) []
          else stripBoth (joinNl (line :: buf).reverse) :: jsGo ls (jsDepth depth line) []
        else jsGo ls (jsDepth depth line) (line :: buf)).map nrm).flatten = _
      by_cases hcm : jsCommentLine line = true
      · rw [if_pos hcm, ih depth (line :: buf) hbuf' hls', hstep]
      · rw [if_neg hcm]
        by_cases hcond : jsDepth depth line = 0 ∧ ¬(line :: buf).isEmpty ∧ hasChar '{' line
        · rw [if_pos hcond]
          by_cases hempty : (stripBoth (joinNl (line :: buf).reverse)).isEmpty
          · rw [if_pos hempty]
            rw [ih (jsDepth depth line) [] (by simp) hls']
            rw [List.isEmpty_iff] at hempty
            have hb : (((line :: buf).reverse.map stripBoth).filter (fun l => l ≠ [])) = [] := by
              have hnb := nrm_block (line :: buf).reverse hbl
              rw [hempty] at hnb
              exact hnb.symm
            rw [← hstep, fs_append (line :: buf).reverse ls, hb, List.nil_append]
            simp
          · rw [if_neg hempty]
            rw [List.map_cons, List.flatten_cons, ih (jsDepth depth line) [] (by simp) hls',
              nrm_block (line :: buf).reverse hbl, ← hstep,
              fs_append (line :: buf).reverse ls]
            simp
        · rw [if_neg hcond, ih (jsDepth depth line) (line :: buf) hbuf' hls', hstep]

theorem goGo_nrm : ∀ (ls : List (List Char)) (depth : Int) (buf : List (List Char)),
    (∀ l ∈ buf, '\n' ∉ l) → (∀ l ∈ ls, '\n' ∉ l) →
    ((goGo ls depth buf).map nrm).flatten =
      ((buf.reverse ++ ls).map stripBoth).filter (fun l => l ≠ []) := by
  intro ls
  induction ls with
  | nil =>
      intro depth buf hbuf _
      rw [List.append_nil]
      exact nrm_flush buf hbuf
  | cons line ls ih =>
      intro depth buf hbuf hls
      have hline : '\n' ∉ line := hls line (List.mem_cons_self line ls)
      have hls' : ∀ l ∈ ls, '\n' ∉ l := fun l hl => hls l (List.mem_cons_of_mem line hl)
      have hbuf' : ∀ l ∈ line :: buf, '\n' ∉ l := by
        intro l hl
        rcases List.mem_cons.mp hl with h1 | h1
        · rw [h1]; exact hline
        · exact hbuf l h1
      have hbl : ∀ l ∈ (line :: buf).reverse, '\n' ∉ l :=
        fun l hl => hbuf' l (List.mem_reverse.mp hl)
      have hstep : (line :: buf).reverse ++ ls = buf.reverse ++ line :: ls := by simp
      show ((if goDepth depth line = 0 ∧ hasChar '{' line then
          if (stripBoth (joinNl (line :: buf).reverse)).isEmpty then
            goGo ls (goDepth depth line) []
          else stripBoth (joinNl (line :: buf).reverse) :: goGo ls (goDepth depth line) []
        else goGo ls (goDepth depth line) (line :: buf)).map nrm).flatten = _
      by_cases hcond : goDepth depth line = 0 ∧ hasChar '{' line
      · rw [if_pos hcond]
        by_cases hempty : (stripBoth (joinNl (line :: buf).reverse)).isEmpty
        · rw [if_pos hempty]
          rw [ih (goDepth depth line) [] (by simp) hls']
          rw [List.isEmpty_iff] at hempty
          have hb : (((line :: buf).reverse.map stripBoth).filter (fun l => l ≠ [])) = [] := by
            have hnb := nrm_block (line :: buf).reverse hbl
            rw [hempty] at hnb
            exact hnb.symm
          rw [← hstep, fs_append (line :: buf).reverse ls, hb, List.nil_append]
          simp
        · rw [if_neg hempty]
          rw [List.map_cons, List.flatten_cons, ih (goDepth depth line) [] (by simp) hls',
            nrm_block (line :: buf).reverse hbl, ← hstep,
            fs_append (line :: buf).reverse ls]
          simp
      · rw [if_neg hcond, ih (goDepth depth line) (line :: buf) hbuf' hls', hstep]

theorem rubyGo_nrm : ∀ (ls : List (List Char)) (depth : Nat) (buf : List (List Char)),
    (∀ l ∈ buf, '\n' ∉ l) → (∀ l ∈ ls, '\n' ∉ l) →
    ((rubyGo ls depth buf).map nrm).flatten =
      ((buf.reverse ++ ls).map stripBoth).filter (fun l => l ≠ []) := by
  intro ls
  induction ls with
  | nil =>
      intro depth buf hbuf _
      rw [List.append_nil]
      exact nrm_flush buf hbuf
  | cons line ls ih =>
      intro depth buf hbuf hls
      have hline : '\n' ∉ line := hls line (List.mem_cons_self line ls)
      have hls' : ∀ l ∈ ls, '\n' ∉ l := fun l hl => hls l (List.mem_cons_of_mem line hl)
      have hbuf' : ∀ l ∈ line :: buf, '\n' ∉ l := by
        intro l hl
        rcases List.mem_cons.mp hl with h1 | h1
        · rw [h1]; exact hline
        · exact hbuf l h1
      have hbl : ∀ l ∈ (line :: buf).reverse, '\n' ∉ l :=
        fun l hl => hbuf' l (List.mem_reverse.mp hl)
      have hstep : (line :: buf).reverse ++ ls = buf.reverse ++ line :: ls := by simp
      show ((if rubyKwLine (stripBoth line) then rubyGo ls (depth + 1) (line :: buf)
        else if stripBoth line = "end".data ∧ depth > 0 then
          if depth = 1 then
            if (stripBoth (joinNl (line :: buf).reverse)).isEmpty then rubyGo ls 0 []
            else stripBoth (joinNl (line :: buf).reverse) :: rubyGo ls 0 []
          else rubyGo ls (depth - 1) (line :: buf)
        else rubyGo ls depth (line :: buf)).map nrm).flatten = _
      by_cases hkw : rubyKwLine (stripBoth line) = true
      · rw [if_pos hkw, ih (depth + 1) (line :: buf) hbuf' hls', hstep]
      · rw [if_neg hkw]
        by_cases hend : stripBoth line = "end".data ∧ depth > 0
        · rw [if_pos hend]
          by_cases h1 : depth = 1
          · rw [if_pos h1]
            by_cases hempty : (stripBoth (joinNl (line :: buf).reverse)).isEmpty
            · rw [if_pos hempty]
              rw [ih 0 [] (by simp) hls']
              rw [List.isEmpty_iff] at hempty
              have hb : (((line :: buf).reverse.map stripBoth).filter (fun l => l ≠ [])) = [] := by
                have hnb := nrm_block (line :: buf).reverse hbl
                rw [hempty] at hnb
                exact hnb.symm
              rw [← hstep, fs_append (line :: buf).reverse ls, hb, List.nil_append]
              simp
            · rw [if_neg hempty]
              rw [List.map_cons, List.flatten_cons, ih 0 [] (by simp) hls',
                nrm_block (line :: buf).reverse hbl, ← hstep,
                fs_append (line :: buf).reverse ls]
              simp
          · rw [if_neg h1, ih (depth - 1) (line :: buf) hbuf' hls', hstep]
        · rw [if_neg hend, ih depth (line :: buf) hbuf' hls', hstep]

/-- C2 (amended): for the brace delimited and keyword delimited
splitters, concatenating the emitted blocks in order and restoring line
joins reproduces the original lines up to per block whitespace trimming:
after trimming every line and dropping blank lines, the concatenated
block lines equal the original lines, with none lost, duplicated or
reordered. -/
theorem c2_split_preserves_trimmed_lines (code : String) :
    (((split_java_code code).map normLines).flatten = normLines code) ∧
    (((split_js_code code).map normLines).flatten = normLines code) ∧
    (((split_go_code code).map normLines).flatten = normLines code) ∧
    (((split_ruby_code code).map normLines).flatten = normLines code) := by
  have hnl := mem_pyLines_no_nl code.data
  have hcomp : (normLines ∘ String.mk) = nrm := funext normLines_mk
  refine ⟨?_, ?_, ?_, ?_⟩
  · show (((match javaGo (pyLines code.data) 0 [] with
      | [] => [code]
      | bs => bs.map String.mk).map normLines).flatten = normLines code)
    cases h : javaGo (pyLines code.data) 0 [] with
    | nil => simp
    | cons b bs =>
        have key := javaGo_nrm (pyLines code.data) 0 [] (by simp) hnl
        rw [h] at key
        show (((b :: bs).map String.mk).map normLines).flatten = normLines code
        rw [List.map_map, hcomp, key]
        simp [normLines]
  · show (((match jsGo (pyLines code.data) 0 [] with
      | [] => [code]
      | bs => bs.map String.mk).map normLines).flatten = normLines code)
    cases h : jsGo (pyLines code.data) 0 [] with
    | nil => simp
    | cons b bs =>
        have key := jsGo_nrm (pyLines code.data) 0 [] (by simp) hnl
        rw [h] at key
        show (((b :: bs).map String.mk).map normLines).flatten = normLines code
        rw [List.map_map, hcomp, key]
        simp [normLines]
  · show (((match goGo (pyLines code.data) 0 [] with
      | [] => [code]
      | bs => bs.map String.mk).map normLines).flatten = normLines code)
    cases h : goGo (pyLines code.data) 0 [] with
    | nil => simp
    | cons b bs =>
        have key := goGo_nrm (pyLines code.data) 0 [] (by simp) hnl
        rw [h] at key
        show (((b :: bs).map String.mk).map normLines).flatten = normLines code
        rw [List.map_map, hcomp, key]
        simp [normLines]
  · show (((match rubyGo (pyLines code.data) 0 [] with
      | [] => [code]
      | bs => bs.map String.mk).map normLines).flatten = normLines code)
    cases h : rubyGo (pyLines code.data) 0 [] with
    | nil => simp
    | cons b bs =>
        have key := rubyGo_nrm (pyLines code.data) 0 [] (by simp) hnl
        rw [h] at key
        show (((b :: bs).map String.mk).map normLines).flatten = normLines code
        rw [List.map_map, hcomp, key]
        simp [normLines]

/-- C2 counterexample: the Java splitter drops a blank line between two
blocks, so concatenating the emitted blocks does not reproduce the
original lines exactly: the empty line of the input is in no block. -/
theorem c2_blank_line_lost :
    ("" : String) ∈ pyLinesStr "x() \x7b\x7d\n\ny() \x7b\x7d" ∧
    ("" : String) ∉ ((split_java_code "x() \x7b\x7d\n\ny() \x7b\x7d").map pyLinesStr).flatten ∧
    ((split_java_code "x() \x7b\x7d\n\ny() \x7b\x7d").map pyLinesStr).flatten ≠
      pyLinesStr "x() \x7b\x7d\n\ny() \x7b\x7d" := by
  refine ⟨by decide, by decide, by decide⟩

/-! ### The two method Java scenario -/

theorem ne_nil_of_hasChar {c : Char} {cs : List Char} (h : hasChar c cs = true) :
    cs ≠ [] := by
  intro hn
  rw [hn] at h
  exact absurd h (by simp [hasChar])

theorem pyLines_two (l1 l2 : List Char) (h1 : '\n' ∉ l1) (h2 : '\n' ∉ l2)
    (hne : l2 ≠ []) : pyLines (l1 ++ '\n' :: l2) = [l1, l2] := by
  unfold pyLines
  have hcs : l1 ++ '\n' :: l2 ≠ [] := by
    cases l1 <;> simp
  rw [if_neg hcs]
  have hsplit : splitOnChar '\n' (l1 ++ '\n' :: l2) = [l1, l2] := by
    rw [splitOnChar_append_sep, splitOnChar_no_sep '\n' l1 h1, splitOnChar_no_sep '\n' l2 h2]
    rfl
  rw [hsplit]
  have hlast : ([l1, l2].getLast? = some l2) := rfl
  rw [if_neg (by rw [hlast]; simp [hne])]

theorem javaGo_two_single_line (l1 l2 : List Char)
    (h1o : hasChar '{' l1 = true) (h1c : hasChar '}' l1 = true)
    (h2o : hasChar '{' l2 = true) (h2c : hasChar '}' l2 = true) :
    javaGo [l1, l2] 0 [] = [stripBoth l1, stripBoth l2] := by
  have hs1 : javaStack 0 l1 = 0 := by
    unfold javaStack
    rw [h1o]
    simp [h1c]
  have hs2 : javaStack 0 l2 = 0 := by
    unfold javaStack
    rw [h2o]
    simp [h2c]
  show (if javaStack 0 l1 = 0 ∧ hasChar '{' l1 then
      stripBoth (joinNl (([] : List (List Char)).reverse ++ [l1])) :: javaGo [l2] 0 []
    else javaGo [l2] (javaStack 0 l1) (l1 :: [])) = _
  rw [if_pos ⟨hs1, h1o⟩]
  show stripBoth (joinNl [l1]) :: (if javaStack 0 l2 = 0 ∧ hasChar '{' l2 then
      stripBoth (joinNl (([] : List (List Char)).reverse ++ [l2])) :: javaGo [] 0 []
    else javaGo [] (javaStack 0 l2) (l2 :: [])) = _
  rw [if_pos ⟨hs2, h2o⟩]
  rfl

set_option maxRecDepth 400000 in
/-- C6 (amended): a Java file consisting of two top level methods each
written on a single source line (so each line contains both its opening
and its closing brace), totalling more than 512 words, yields exactly
two code blocks, each equal to one method trimmed, in source order.  A
file whose methods span several lines does not split this way, see the
counterexample. -/
theorem c6_two_single_line_methods (pyParse : String → Option (List String))
    (records : List (String × String)) (i : Nat) (path code : String)
    (l1 l2 : List Char)
    (hget : records[i]? = some (path, code))
    (hlang : detect_lang path = "java")
    (hdata : code.data = l1 ++ '\n' :: l2)
    (h1n : '\n' ∉ l1) (h2n : '\n' ∉ l2)
    (h1o : hasChar '{' l1 = true) (h1c : hasChar '}' l1 = true)
    (h2o : hasChar '{' l2 = true) (h2c : hasChar '}' l2 = true)
    (hwc : 512 < countWords code) :
    (split_code_blocks pyParse 512 records).filter (fun u => u.fileIdx == 1 + i) =
      [⟨1 + i, 1, path, "java", String.mk (stripBoth l1)⟩,
       ⟨1 + i, 2, path, "java", String.mk (stripBoth l2)⟩] := by
  rw [split_code_blocks, scbGo_filter_eq pyParse 512 records 1 i path code hget]
  unfold unitsFor
  rw [if_neg (by omega)]
  have hjava : javaGo (pyLines code.data) 0 [] = [stripBoth l1, stripBoth l2] := by
    rw [hdata, pyLines_two l1 l2 h1n h2n (ne_nil_of_hasChar h2o)]
    exact javaGo_two_single_line l1 l2 h1o h1c h2o h2c
  have hblocks : split_java_code code = [String.mk (stripBoth l1), String.mk (stripBoth l2)] := by
    unfold split_java_code
    rw [hjava]
    rfl
  have hbf : blocksFor pyParse path code =
      [String.mk (stripBoth l1), String.mk (stripBoth l2)] := by
    unfold blocksFor
    rw [hlang]
    exact hblocks
  rw [hbf, hlang]
  rfl

set_option maxRecDepth 400000 in
/-- C6 witness: a concrete Java file of two single line methods with more
than 512 words in total. -/
theorem c6_two_single_line_methods_witness :
    (split_code_blocks (fun _ => none) 512 [("A.java", c6code)]).filter
        (fun u => u.fileIdx == 1 + 0) =
      [⟨1 + 0, 1, "A.java", "java", String.mk (stripBoth jm1.data)⟩,
       ⟨1 + 0, 2, "A.java", "java", String.mk (stripBoth jm2.data)⟩] :=
  c6_two_single_line_methods (fun _ => none) [("A.java", c6code)] 0 "A.java" c6code
    jm1.data jm2.data rfl (by decide) rfl (by decide) (by decide) (by decide) (by decide)
    (by decide) (by decide) (by decide)

set_option maxRecDepth 400000 in
/-- C6 counterexample: a Java file of two multi line top level methods,
each self contained with balanced braces and more than 512 words in
total, is emitted as a single block, not two: the block close condition
requires an opening brace on the closing line. -/
theorem c6_multiline_methods_single_block :
    512 < countWords c6cexCode ∧
    (split_code_blocks (fun _ => none) 512 [("A.java", c6cexCode)]).length = 1 := by
  refine ⟨by decide, by decide⟩

end DownloadPy
